import Mathlib

/-!
Verification of the dev-notes-app core: the note indexer (`src/notesMap.ts`),
the list-view grouping (`src/pages/NoteListPage.tsx`) and the detail-view
lookup (`src/pages/NotePage.tsx`).  Strings are embedded as `List Char`;
the JavaScript string operations used by the source are reproduced with
their exact semantics (`String.prototype.replace` with a string pattern
replaces only the first occurrence; the regex `\.md$` removes one trailing
`.md`; `String.prototype.split` with a one-character separator).
-/

namespace DevNotes

/-- JS `s.startsWith(pat)` / the matching test used by `indexOf`:
`listStartsWith s pat` is true when `pat` is an initial run of `s`. -/
def listStartsWith : List Char → List Char → Bool
  | _, [] => true
  | [], _ :: _ => false
  | c :: cs, p :: ps => if c = p then listStartsWith cs ps else false

/-- JS `s.replace(pat, repl)` with a *string* pattern: only the first
occurrence of `pat` in `s` is replaced by `repl`; if `pat` does not occur,
`s` is returned unchanged.  (With an empty pattern JS inserts `repl` at the
start, which this definition also reproduces.) -/
def replaceFirst : List Char → List Char → List Char → List Char
  | [], pat, repl => if pat.isEmpty then repl else []
  | c :: cs, pat, repl =>
    if listStartsWith (c :: cs) pat then repl ++ (c :: cs).drop pat.length
    else c :: replaceFirst cs pat repl

/-- `listEndsWith s suf` is true when `suf` is a final run of `s`. -/
def listEndsWith (s suf : List Char) : Bool :=
  listStartsWith s.reverse suf.reverse

/-- JS `s.replace(/suf$/, '')` for a literal suffix `suf`: removes one
trailing copy of `suf` when present, otherwise leaves `s` unchanged. -/
def stripSuffixOnce (s suf : List Char) : List Char :=
  if listEndsWith s suf then s.take (s.length - suf.length) else s

/-- JS `s.split(sep)` for a one-character separator: always returns at
least one (possibly empty) segment; `"".split(sep) = [""]`. -/
def splitOnChar (sep : Char) : List Char → List (List Char)
  | [] => [[]]
  | c :: cs =>
    match splitOnChar sep cs with
    | [] => [[]]
    | r :: rs => if c = sep then [] :: r :: rs else (c :: r) :: rs

/-- The glob root used in `src/notesMap.ts`: `'./notes/'`. -/
def rootDir : List Char := "./notes/".toList

/-- The filename suffix stripped in `src/notesMap.ts`: `'.md'`. -/
def mdExt : List Char := ".md".toList

/-- The sentinel category for single-segment paths (`'root'`). -/
def rootCategory : List Char := "root".toList

/-- `NoteItem` from `src/notesMap.ts`. -/
structure NoteItem where
  path : List Char
  name : List Char
  category : List Char
  content : List Char
deriving DecidableEq

/-- The two-step key-to-path derivation in `src/notesMap.ts`:
`filePath.replace('./notes/', '').replace(/\.md$/, '')`. -/
def derivePath (filePath : List Char) : List Char :=
  stripSuffixOnce (replaceFirst filePath rootDir []) mdExt

/-- The body of the `Object.entries(notesMap).map` callback in
`src/notesMap.ts`: one collector entry `(filePath, content)` becomes one
`NoteItem`.  `segments[segments.length - 1]` and `segments[0]` are total
here because `splitOnChar` never returns `[]`; they are embedded as
`getLastD` / `headD` with an irrelevant default. -/
def mkNote (filePath content : List Char) : NoteItem :=
  let withoutExt := derivePath filePath
  let segments := splitOnChar '/' withoutExt
  { path := withoutExt
    name := segments.getLastD []
    category := if 1 < segments.length then segments.headD [] else rootCategory
    content := content }

/-- `noteList` from `src/notesMap.ts`, as a function of the collector
output (`Object.entries(notesMap)` — an association list whose keys are
unique because they are the keys of a JS object). -/
def noteList (entries : List (List Char × List Char)) : List NoteItem :=
  entries.map fun e => mkNote e.1 e.2

/-- The rendering outcome of `NotePage` (`src/pages/NotePage.tsx`), kept as
data: the not-found branch renders a back link (to `'/'`); the found branch
renders a back link, the category text, and feeds the note's content to the
external Markdown renderer. -/
inductive NotePageView where
  | notFound (backLink : List Char)
  | found (backLink : List Char) (categoryText : List Char) (markdownInput : List Char)
deriving DecidableEq

/-- The lookup in `NotePage`: `noteList.find((n) => n.path === path)`. -/
def lookupNote (notes : List NoteItem) (path : List Char) : Option NoteItem :=
  notes.find? fun n => n.path = path

/-- `NotePage` itself: exact-match lookup, then either the not-found view
or the found view.  The found branch of the source renders exactly two
dynamic strings: `{note.category}` (the aside metadata block) and
`note.content` (the `markdown` prop of `MarkdownViewer`); `note.name` does
not appear in the rendered output. -/
def notePage (notes : List NoteItem) (path : List Char) : NotePageView :=
  match lookupNote notes path with
  | none => .notFound "/".toList
  | some note => .found "/".toList note.category note.content

/-- The dynamic metadata strings displayed by a `NotePageView` outside the
Markdown renderer. -/
def NotePageView.metaTexts : NotePageView → List (List Char)
  | .notFound _ => []
  | .found _ cat _ => [cat]

/-- The string handed to the external Markdown renderer, when any. -/
def NotePageView.markdownInput? : NotePageView → Option (List Char)
  | .notFound _ => none
  | .found _ _ md => some md

/-- The property names a plain object literal `{}` inherits from
`Object.prototype` (methods plus the `__proto__` accessor).  All of their
values are truthy, so the truthiness test `!acc[cat]` is false for these
names even before any group was assigned. -/
def objectProtoProps : List (List Char) :=
  ["constructor".toList, "hasOwnProperty".toList, "isPrototypeOf".toList,
   "propertyIsEnumerable".toList, "toLocaleString".toList, "toString".toList,
   "valueOf".toList, "__proto__".toList, "__defineGetter__".toList,
   "__defineSetter__".toList, "__lookupGetter__".toList, "__lookupSetter__".toList]

/-- One step of the `reduce` in `NoteListPage` (`src/pages/NoteListPage.tsx`):
`if (!acc[note.category]) acc[note.category] = []; acc[note.category].push(note)`.
The accumulator is the object literal `{}`, so the property read
`acc[note.category]` sees own properties (the groups created so far) and,
failing that, the properties inherited from `Object.prototype`.  When the
category is an own key the note is pushed onto that group (a JS object has
unique keys, so the `map` touches exactly one group).  When it is not an
own key but is an inherited property name, the inherited value is truthy,
the initialization is skipped, and `.push` on the inherited non-array value
throws a `TypeError` — modelled as `none`.  Otherwise a fresh group is
appended (JS object insertion order). -/
def insertGrouped (acc : List (List Char × List NoteItem)) (note : NoteItem) :
    Option (List (List Char × List NoteItem)) :=
  if acc.any (fun kg => kg.1 = note.category) then
    some (acc.map fun kg => if kg.1 = note.category then (kg.1, kg.2 ++ [note]) else kg)
  else if note.category ∈ objectProtoProps then
    none
  else
    some (acc ++ [(note.category, [note])])

/-- The grouping of `NoteListPage`: `noteList.reduce(..., {})`; a
`TypeError` thrown by a step propagates out of the reduce, so the whole
grouping aborts (`none`) and nothing is rendered. -/
def groupByCategory (notes : List NoteItem) : Option (List (List Char × List NoteItem)) :=
  notes.foldlM insertGrouped []

/-- Spec-side reading of "the substring of `path` after the last `/`
(the whole string when there is no `/`)". -/
def afterLastSlash (s : List Char) : List Char :=
  (s.reverse.takeWhile (fun c => c ≠ '/')).reverse

/-- Spec-side reading of "the substring of `path` before the first `/`". -/
def beforeFirstSlash (s : List Char) : List Char :=
  s.takeWhile (fun c => c ≠ '/')

/-- A key that starts with the root `'./notes/'` and ends with `'.md'`,
written as its decomposition around the middle part. -/
def WellFormedKey (k : List Char) : Prop :=
  ∃ mid, k = rootDir ++ mid ++ mdExt

/-- Modelled from the spec: the Note Source Collector (`import.meta.glob`
in `src/notesMap.ts`, whose matching semantics live outside this
repository).  A produced key is the root `'./notes/'` followed by zero or
more directory segments and a filename matching `*.md`; per the spec the
keys are "relative paths including the filter suffix", and the glob `*`
never matches an empty filename stem, so the stem is non-empty. -/
def isCollectorKey (k : List Char) : Prop :=
  ∃ (dirs : List (List Char)) (stem : List Char),
    (∀ d ∈ dirs, '/' ∉ d) ∧ stem ≠ [] ∧ '/' ∉ stem ∧
    k = rootDir ++ (dirs.map (fun d => d ++ ['/'])).flatten ++ stem ++ mdExt

/-- The invariant maintained by the `reduce` of `NoteListPage` over the
processed prefix of the note list. -/
def GInv (processed : List NoteItem) (acc : List (List Char × List NoteItem)) : Prop :=
  (acc.map Prod.fst).Nodup ∧
  (∀ kg ∈ acc, kg.2 = processed.filter (fun n => n.category = kg.1)) ∧
  (∀ n ∈ processed, n.category ∈ acc.map Prod.fst) ∧
  ((acc.map Prod.snd).flatten).Perm processed

/-- Collector output as in spec scenario 1 plus a single-segment file. -/
def demoEntries : List (List Char × List Char) :=
  [("./notes/React/hooks/useRef.md".toList, "# Title".toList),
   ("./notes/README.md".toList, "readme body".toList)]

/-- The two records arising from `demoEntries`. -/
def demoNote1 : NoteItem := mkNote "./notes/React/hooks/useRef.md".toList "# Title".toList

/-- The single-segment record arising from `demoEntries`. -/
def demoNote2 : NoteItem := mkNote "./notes/README.md".toList "readme body".toList

/-- A one-note collector output whose note has distinct name and category. -/
def abEntries : List (List Char × List Char) :=
  [("./notes/a/b.md".toList, "body".toList)]

/-- Collector output mixing a single-segment key with a key whose first
directory segment is literally `root`. -/
def rootDemoEntries : List (List Char × List Char) :=
  [("./notes/x.md".toList, "cx".toList),
   ("./notes/root/y.md".toList, "cy".toList)]

/-- A collector output whose single note's category is the inherited
`Object.prototype` property name `toString`. -/
def protoEntries : List (List Char × List Char) :=
  [("./notes/toString/x.md".toList, "c".toList)]

theorem listStartsWith_append (p rest : List Char) :
    listStartsWith (p ++ rest) p = true := by
  induction p with
  | nil => cases rest <;> rfl
  | cons a as ih => simpa [listStartsWith] using ih

theorem replaceFirst_append (p rest r : List Char) :
    replaceFirst (p ++ rest) p r = r ++ rest := by
  cases p with
  | nil =>
    cases rest with
    | nil => simp [replaceFirst, List.isEmpty]
    | cons c cs => simp [replaceFirst, listStartsWith]
  | cons a as =>
    have hsw : listStartsWith ((a :: as) ++ rest) (a :: as) = true :=
      listStartsWith_append (a :: as) rest
    simp only [List.cons_append] at hsw ⊢
    simp [replaceFirst, hsw, List.drop_left]

theorem listEndsWith_append (mid suf : List Char) :
    listEndsWith (mid ++ suf) suf = true := by
  unfold listEndsWith
  rw [List.reverse_append]
  exact listStartsWith_append suf.reverse mid.reverse

theorem stripSuffixOnce_append (mid suf : List Char) :
    stripSuffixOnce (mid ++ suf) suf = mid := by
  simp [stripSuffixOnce, listEndsWith_append, List.length_append, List.take_left]

theorem derivePath_eq (mid : List Char) :
    derivePath (rootDir ++ mid ++ mdExt) = mid := by
  unfold derivePath
  rw [List.append_assoc, replaceFirst_append]
  simpa using stripSuffixOnce_append mid mdExt

theorem derivePath_inj (k1 k2 : List Char) (h1 : WellFormedKey k1)
    (h2 : WellFormedKey k2) (hne : k1 ≠ k2) :
    derivePath k1 ≠ derivePath k2 := by
  obtain ⟨m1, rfl⟩ := h1
  obtain ⟨m2, rfl⟩ := h2
  rw [derivePath_eq, derivePath_eq]
  intro h
  exact hne (by rw [h])

theorem noteList_map_path (entries : List (List Char × List Char)) :
    (noteList entries).map NoteItem.path = entries.map fun e => derivePath e.1 := by
  simp only [noteList, List.map_map]
  rfl

theorem noteList_paths_nodup (entries : List (List Char × List Char))
    (hnodup : (entries.map Prod.fst).Nodup)
    (hwf : ∀ e ∈ entries, WellFormedKey e.1) :
    ((noteList entries).map NoteItem.path).Nodup := by
  rw [noteList_map_path]
  have hswap : (entries.map fun e => derivePath e.1)
      = (entries.map Prod.fst).map derivePath := by
    rw [List.map_map]
    rfl
  rw [hswap]
  refine List.Nodup.map_on ?_ hnodup
  intro x hx y hy hxy
  by_contra hne
  obtain ⟨ex, hex, hex1⟩ := List.mem_map.mp hx
  obtain ⟨ey, hey, hey1⟩ := List.mem_map.mp hy
  exact derivePath_inj x y (hex1 ▸ hwf ex hex) (hey1 ▸ hwf ey hey) hne hxy

/-- C3: for a collector key `"./notes/" ++ mid ++ ".md"` the derived path is
exactly `mid` — the root prefix and the `.md` extension are each removed
exactly once, so the key `./notes/a.md.md` yields path `a.md`, and an
occurrence of `.md` that is not at the end of the key is preserved. -/
theorem c3_path_derivation (mid : List Char) :
    derivePath (rootDir ++ mid ++ mdExt) = mid ∧
    derivePath "./notes/a.md.md".toList = "a.md".toList ∧
    derivePath "./notes/x.md/y.md".toList = "x.md/y".toList :=
  ⟨derivePath_eq mid, by decide, by decide⟩

/-- C5: path derivation is injective on distinct well-formed keys (keys
starting with `./notes/` and ending with `.md`), hence `path` is unique
across the records of `noteList` whenever the collector keys are distinct
and well-formed. -/
theorem c5_path_unique :
    (∀ k1 k2, WellFormedKey k1 → WellFormedKey k2 → k1 ≠ k2 →
      derivePath k1 ≠ derivePath k2) ∧
    ∀ entries : List (List Char × List Char),
      (entries.map Prod.fst).Nodup → (∀ e ∈ entries, WellFormedKey e.1) →
      ((noteList entries).map NoteItem.path).Nodup :=
  ⟨derivePath_inj, noteList_paths_nodup⟩

theorem c5_path_unique_witness :
    derivePath "./notes/a.md".toList ≠ derivePath "./notes/b.md".toList :=
  c5_path_unique.1 _ _ ⟨"a".toList, by decide⟩ ⟨"b".toList, by decide⟩ (by decide)

/-- C8: for every collector key the derived path (root prefix and `.md`
suffix stripped) is non-empty, because the filename stem matched by the
glob is non-empty. -/
theorem c8_path_nonempty (k : List Char) (h : isCollectorKey k) :
    derivePath k ≠ [] := by
  obtain ⟨dirs, stem, -, hstem, -, rfl⟩ := h
  rw [show rootDir ++ (dirs.map fun d => d ++ ['/']).flatten ++ stem ++ mdExt
        = rootDir ++ ((dirs.map fun d => d ++ ['/']).flatten ++ stem) ++ mdExt by
      simp [List.append_assoc]]
  rw [derivePath_eq]
  intro heq
  exact hstem (List.append_eq_nil.mp heq).2

theorem c8_path_nonempty_witness : derivePath "./notes/a.md".toList ≠ [] :=
  c8_path_nonempty _ ⟨[], "a".toList, by simp, by decide, by decide, by decide⟩

theorem lookupNote_self (notes : List NoteItem)
    (h : (notes.map NoteItem.path).Nodup) (r : NoteItem) (hr : r ∈ notes) :
    lookupNote notes r.path = some r := by
  induction notes with
  | nil => cases hr
  | cons n ns ih =>
    rw [List.map_cons] at h
    have hcons := List.nodup_cons.mp h
    rcases List.mem_cons.mp hr with rfl | hmem
    · unfold lookupNote
      rw [List.find?_cons_of_pos _ (by simp)]
    · have hne : n.path ≠ r.path := by
        intro he
        exact hcons.1 (he ▸ List.mem_map_of_mem NoteItem.path hmem)
      unfold lookupNote
      rw [List.find?_cons_of_neg _ (by simp [hne])]
      exact ih hcons.2 hmem

/-- C1: for every record `r` of `noteList` (collector keys distinct and
well-formed), the Detail View lookup on `r.path` returns exactly `r`,
content included. -/
theorem c1_lookup_correct (entries : List (List Char × List Char))
    (hnodup : (entries.map Prod.fst).Nodup)
    (hwf : ∀ e ∈ entries, WellFormedKey e.1)
    (r : NoteItem) (hr : r ∈ noteList entries) :
    lookupNote (noteList entries) r.path = some r :=
  lookupNote_self _ (noteList_paths_nodup entries hnodup hwf) r hr

theorem c1_lookup_correct_witness :
    lookupNote (noteList demoEntries) demoNote1.path = some demoNote1 :=
  c1_lookup_correct demoEntries (by decide)
    (by
      intro e he
      simp [demoEntries] at he
      rcases he with rfl | rfl
      · exact ⟨"React/hooks/useRef".toList, by decide⟩
      · exact ⟨"README".toList, by decide⟩)
    demoNote1 (by decide)

/-- C2: for any requested path matching no record (the empty string
included), `NotePage` yields the not-found state with its link back to the
List View; the lookup is total and renders no record's content. -/
theorem c2_notfound_total (entries : List (List Char × List Char)) (p : List Char)
    (h : ∀ r ∈ noteList entries, r.path ≠ p) :
    notePage (noteList entries) p = NotePageView.notFound "/".toList := by
  have hnone : lookupNote (noteList entries) p = none := by
    unfold lookupNote
    rw [List.find?_eq_none]
    intro n hn
    simp [h n hn]
  unfold notePage
  rw [hnone]

theorem c2_notfound_total_witness :
    notePage (noteList demoEntries) [] = NotePageView.notFound "/".toList :=
  c2_notfound_total demoEntries [] (by decide)

/-- C9: a record's `content` is the collector entry's raw text verbatim,
and the found state of `NotePage` passes exactly that string, unchanged, to
the external Markdown renderer. -/
theorem c9_content_verbatim :
    (∀ filePath content : List Char, (mkNote filePath content).content = content) ∧
    ∀ (notes : List NoteItem) (p : List Char) (n : NoteItem),
      lookupNote notes p = some n →
      (notePage notes p).markdownInput? = some n.content := by
  refine ⟨fun _ _ => rfl, fun notes p n h => ?_⟩
  unfold notePage
  rw [h]
  rfl

theorem c9_content_verbatim_witness :
    (notePage (noteList demoEntries) "React/hooks/useRef".toList).markdownInput?
      = some demoNote1.content :=
  c9_content_verbatim.2 (noteList demoEntries) "React/hooks/useRef".toList demoNote1
    (by decide)

/-- C7 (counterexample): the found state of `NotePage` does not display the
record's `name`: for the note at path `a/b` (name `b`, category `a`) the
displayed metadata strings are exactly `[category]`, and `b` is not among
them, contradicting the claim that both `category` and `name` are
displayed. -/
theorem c7_counterexample :
    lookupNote (noteList abEntries) "a/b".toList
        = some (mkNote "./notes/a/b.md".toList "body".toList) ∧
    (mkNote "./notes/a/b.md".toList "body".toList).name = "b".toList ∧
    "b".toList ∉ (notePage (noteList abEntries) "a/b".toList).metaTexts := by
  decide

/-- C7 (amended): when the lookup finds a record, the found state displays
the record's `category` as its only metadata string and passes the record's
`content` to the Markdown renderer; the record's `name` is not displayed. -/
theorem c7_found_metadata (notes : List NoteItem) (p : List Char) (n : NoteItem)
    (h : lookupNote notes p = some n) :
    (notePage notes p).metaTexts = [n.category] ∧
    (notePage notes p).markdownInput? = some n.content := by
  unfold notePage
  rw [h]
  exact ⟨rfl, rfl⟩

theorem c7_found_metadata_witness :
    (notePage (noteList abEntries) "a/b".toList).metaTexts
        = [(mkNote "./notes/a/b.md".toList "body".toList).category] ∧
      (notePage (noteList abEntries) "a/b".toList).markdownInput?
        = some (mkNote "./notes/a/b.md".toList "body".toList).content :=
  c7_found_metadata (noteList abEntries) "a/b".toList
    (mkNote "./notes/a/b.md".toList "body".toList) (by decide)

/-- C10: the sentinel category `root` is not reserved: a single-segment key
and a key whose first directory segment is literally `root` both yield
category `root`, and the List View grouping puts their records in the same
group. -/
theorem c10_root_sentinel_not_reserved :
    (mkNote "./notes/x.md".toList "cx".toList).category = rootCategory ∧
    (mkNote "./notes/root/y.md".toList "cy".toList).category = rootCategory ∧
    groupByCategory (noteList rootDemoEntries) =
      some [(rootCategory,
        [mkNote "./notes/x.md".toList "cx".toList,
         mkNote "./notes/root/y.md".toList "cy".toList])] := by
  decide

theorem splitOnChar_ne_nil (sep : Char) (s : List Char) : splitOnChar sep s ≠ [] := by
  cases s with
  | nil => simp [splitOnChar]
  | cons c cs =>
    simp only [splitOnChar]
    cases h : splitOnChar sep cs with
    | nil => simp
    | cons r rs => by_cases hc : c = sep <;> simp [hc]

theorem splitOnChar_of_not_mem (sep : Char) (s : List Char) (h : sep ∉ s) :
    splitOnChar sep s = [s] := by
  induction s with
  | nil => rfl
  | cons c cs ih =>
    have hc : ¬ c = sep := fun he => h (by rw [← he]; exact List.mem_cons_self c cs)
    have hcs : sep ∉ cs := fun hm => h (List.mem_cons_of_mem _ hm)
    simp only [splitOnChar]
    rw [ih hcs]
    simp [hc]

theorem splitOnChar_two_le (sep : Char) (s : List Char) (h : sep ∈ s) :
    2 ≤ (splitOnChar sep s).length := by
  induction s with
  | nil => cases h
  | cons c cs ih =>
    simp only [splitOnChar]
    cases hsp : splitOnChar sep cs with
    | nil => exact absurd hsp (splitOnChar_ne_nil sep cs)
    | cons r rs =>
      by_cases hc : c = sep
      · simp only [if_pos hc, List.length_cons]
        omega
      · have hmem : sep ∈ cs := by
          rcases List.mem_cons.mp h with he | hm
          · exact absurd he.symm hc
          · exact hm
        have h2 := ih hmem
        rw [hsp] at h2
        simp only [List.length_cons] at h2
        simp only [if_neg hc, List.length_cons]
        omega

theorem splitOnChar_headD (sep : Char) (s : List Char) :
    (splitOnChar sep s).headD [] = s.takeWhile (fun c => c ≠ sep) := by
  induction s with
  | nil => rfl
  | cons c cs ih =>
    simp only [splitOnChar]
    cases hsp : splitOnChar sep cs with
    | nil => exact absurd hsp (splitOnChar_ne_nil sep cs)
    | cons r rs =>
      rw [hsp] at ih
      simp only [List.headD_cons] at ih
      by_cases hc : c = sep
      · simp [List.takeWhile_cons, hc]
      · simp [List.takeWhile_cons, hc, ih]

theorem takeWhile_append_of_stop {p : Char → Bool} (l l' : List Char)
    (h : ∃ x ∈ l, p x = false) : (l ++ l').takeWhile p = l.takeWhile p := by
  induction l with
  | nil => simp at h
  | cons b bs ih =>
    by_cases hb : p b = true
    · obtain ⟨x, hx, hpx⟩ := h
      have hxbs : x ∈ bs := by
        rcases List.mem_cons.mp hx with rfl | hm
        · rw [hb] at hpx; cases hpx
        · exact hm
      simp [List.takeWhile_cons, hb, ih ⟨x, hxbs, hpx⟩]
    · have hb' : p b = false := by simpa using hb
      simp [List.takeWhile_cons, hb']

theorem takeWhile_append_of_all {p : Char → Bool} (l l' : List Char)
    (h : ∀ x ∈ l, p x = true) : (l ++ l').takeWhile p = l ++ l'.takeWhile p := by
  induction l with
  | nil => simp
  | cons b bs ih =>
    simp [List.takeWhile_cons, h b (List.mem_cons_self b bs),
      ih fun x hx => h x (List.mem_cons_of_mem _ hx)]

theorem getLastD_cons_eq (x : List Char) (xs : List (List Char)) (d : List Char) :
    (x :: xs).getLastD d = xs.getLastD x := by
  cases xs <;> simp [List.getLastD]

theorem splitOnChar_getLastD (sep : Char) (s : List Char) :
    (splitOnChar sep s).getLastD [] = (s.reverse.takeWhile (fun c => c ≠ sep)).reverse := by
  induction s with
  | nil => rfl
  | cons c cs ih =>
    simp only [splitOnChar]
    cases hsp : splitOnChar sep cs with
    | nil => exact absurd hsp (splitOnChar_ne_nil sep cs)
    | cons r rs =>
      show (if c = sep then [] :: r :: rs else (c :: r) :: rs).getLastD []
          = ((c :: cs).reverse.takeWhile (fun x => x ≠ sep)).reverse
      rw [hsp] at ih
      rw [List.reverse_cons]
      by_cases hmem : sep ∈ cs
      · rw [takeWhile_append_of_stop cs.reverse [c]
            ⟨sep, List.mem_reverse.mpr hmem, by simp⟩]
        rw [← ih]
        by_cases hc : c = sep
        · rw [if_pos hc]
          exact getLastD_cons_eq [] (r :: rs) []
        · rw [if_neg hc]
          have h2 := splitOnChar_two_le sep cs hmem
          rw [hsp] at h2
          cases rs with
          | nil => simp at h2
          | cons r2 rs2 =>
            rw [getLastD_cons_eq (c :: r) (r2 :: rs2) [],
              getLastD_cons_eq r (r2 :: rs2) [],
              getLastD_cons_eq r2 rs2 (c :: r), getLastD_cons_eq r2 rs2 r]
      · have hall : ∀ x ∈ cs.reverse, (fun y => decide (y ≠ sep)) x = true := by
          intro x hx
          have hxs : x ≠ sep := fun he => hmem (he ▸ List.mem_reverse.mp hx)
          simp [hxs]
        have hone := splitOnChar_of_not_mem sep cs hmem
        rw [hone] at hsp
        have heq : r = cs ∧ rs = [] := by
          have := hsp.symm
          simp only [List.cons.injEq] at this
          exact this
        rw [takeWhile_append_of_all _ [c] hall]
        by_cases hc : c = sep
        · rw [if_pos hc]
          have hw : List.takeWhile (fun y => decide (y ≠ sep)) [c] = [] := by
            simp [List.takeWhile_cons, hc]
          rw [hw, List.append_nil, List.reverse_reverse,
            getLastD_cons_eq [] (r :: rs) [], getLastD_cons_eq r rs []]
          rw [heq.2, heq.1]
          rfl
        · rw [if_neg hc]
          have hw : List.takeWhile (fun y => decide (y ≠ sep)) [c] = [c] := by
            simp [List.takeWhile_cons, hc]
          rw [hw, List.reverse_append, List.reverse_reverse,
            getLastD_cons_eq (c :: r) rs []]
          rw [heq.2]
          rw [heq.1]
          rfl

/-- C4: for every record the indexer produces, `name` is the substring of
`path` after the last `/` (the whole `path` when it has no `/`), and
`category` is the substring before the first `/` when `path` contains a
`/`, else the sentinel `root`; in particular `./notes/README.md` yields a
record with `name = path` and `category = root`. -/
theorem c4_name_category (filePath content : List Char) :
    (mkNote filePath content).name = afterLastSlash (mkNote filePath content).path ∧
    (mkNote filePath content).category =
      (if '/' ∈ (mkNote filePath content).path
       then beforeFirstSlash (mkNote filePath content).path else rootCategory) ∧
    (mkNote "./notes/README.md".toList content).name
        = (mkNote "./notes/README.md".toList content).path ∧
    (mkNote "./notes/README.md".toList content).category = rootCategory := by
  refine ⟨?_, ?_, rfl, rfl⟩
  · exact splitOnChar_getLastD '/' (derivePath filePath)
  · by_cases hm : '/' ∈ derivePath filePath
    · have h2 := splitOnChar_two_le '/' _ hm
      show (if 1 < (splitOnChar '/' (derivePath filePath)).length
            then (splitOnChar '/' (derivePath filePath)).headD []
            else rootCategory)
          = (if '/' ∈ derivePath filePath
             then beforeFirstSlash (derivePath filePath) else rootCategory)
      rw [if_pos (by omega), if_pos hm]
      exact splitOnChar_headD '/' (derivePath filePath)
    · have hs := splitOnChar_of_not_mem '/' _ hm
      show (if 1 < (splitOnChar '/' (derivePath filePath)).length
            then (splitOnChar '/' (derivePath filePath)).headD []
            else rootCategory)
          = (if '/' ∈ derivePath filePath
             then beforeFirstSlash (derivePath filePath) else rootCategory)
      rw [hs, if_neg hm]
      simp

theorem flatten_update_perm (cat : List Char) (n : NoteItem) :
    ∀ acc : List (List Char × List NoteItem),
      (acc.map Prod.fst).Nodup → (∃ kg ∈ acc, kg.1 = cat) →
      ((acc.map fun kg =>
          if kg.1 = cat then (kg.1, kg.2 ++ [n]) else kg).map Prod.snd).flatten.Perm
        ((acc.map Prod.snd).flatten ++ [n]) := by
  intro acc
  induction acc with
  | nil =>
    intro _ hmem
    simp at hmem
  | cons kg rest ih =>
    intro hnd hmem
    rw [List.map_cons] at hnd
    have hcons := List.nodup_cons.mp hnd
    by_cases hk : kg.1 = cat
    · have hrest : rest.map (fun kg' =>
          if kg'.1 = cat then (kg'.1, kg'.2 ++ [n]) else kg') = rest := by
        have hall : ∀ kg' ∈ rest,
            (if kg'.1 = cat then (kg'.1, kg'.2 ++ [n]) else kg') = id kg' := by
          intro kg' hkg'
          rw [if_neg, id]
          intro he
          exact hcons.1 (by rw [hk, ← he]; exact List.mem_map_of_mem _ hkg')
        rw [List.map_congr_left hall, List.map_id]
      simp only [List.map_cons, if_pos hk, hrest, List.flatten_cons]
      simp only [List.append_assoc]
      exact List.Perm.append_left _ List.perm_append_comm
    · have hmem' : ∃ kg' ∈ rest, kg'.1 = cat := by
        obtain ⟨kg', hkg', hcat⟩ := hmem
        rcases List.mem_cons.mp hkg' with rfl | hr
        · exact absurd hcat hk
        · exact ⟨kg', hr, hcat⟩
      have ihh := ih hcons.2 hmem'
      simp only [List.map_cons, if_neg hk, List.flatten_cons]
      simp only [List.append_assoc]
      exact List.Perm.append_left _ ihh

theorem ginv_step (processed : List NoteItem) (acc : List (List Char × List NoteItem))
    (n : NoteItem) (hn : n.category ∉ objectProtoProps) (h : GInv processed acc) :
    ∃ acc2, insertGrouped acc n = some acc2 ∧ GInv (processed ++ [n]) acc2 := by
  obtain ⟨hnd, hfil, hmem, hperm⟩ := h
  by_cases hex : acc.any (fun kg => kg.1 = n.category) = true
  · refine ⟨acc.map fun kg => if kg.1 = n.category then (kg.1, kg.2 ++ [n]) else kg,
      by simp only [insertGrouped]; rw [if_pos hex], ?_⟩
    have hexE : ∃ kg ∈ acc, kg.1 = n.category := by
      obtain ⟨kg, hkg, hp⟩ := List.any_eq_true.mp hex
      exact ⟨kg, hkg, by simpa using hp⟩
    have hkeys : ((acc.map fun kg =>
        if kg.1 = n.category then (kg.1, kg.2 ++ [n]) else kg).map Prod.fst)
        = acc.map Prod.fst := by
      rw [List.map_map]
      apply List.map_congr_left
      intro kg _
      by_cases hk : kg.1 = n.category <;> simp [hk]
    unfold GInv
    refine ⟨?_, ?_, ?_, ?_⟩
    · rw [hkeys]
      exact hnd
    · intro kg' hkg'
      obtain ⟨kg, hkg, rfl⟩ := List.mem_map.mp hkg'
      by_cases hk : kg.1 = n.category
      · rw [if_pos hk]
        show kg.2 ++ [n] = (processed ++ [n]).filter fun m => m.category = kg.1
        rw [List.filter_append, ← hfil kg hkg]
        have : (List.filter (fun m => m.category = kg.1) [n]) = [n] := by
          simp [List.filter_cons, hk]
        rw [this]
      · rw [if_neg hk]
        show kg.2 = (processed ++ [n]).filter fun m => m.category = kg.1
        rw [List.filter_append, ← hfil kg hkg]
        have : (List.filter (fun m => m.category = kg.1) [n]) = [] := by
          have : ¬ n.category = kg.1 := fun he => hk he.symm
          simp [List.filter_cons, this]
        rw [this, List.append_nil]
    · intro m hm
      rw [hkeys]
      rcases List.mem_append.mp hm with hm1 | hm2
      · exact hmem m hm1
      · obtain ⟨kg, hkg, hcat⟩ := hexE
        have hm2' : m = n := by simpa using hm2
        rw [hm2', ← hcat]
        exact List.mem_map_of_mem _ hkg
    · exact (flatten_update_perm n.category n acc hnd hexE).trans
        (hperm.append_right [n])
  · refine ⟨acc ++ [(n.category, [n])],
      by simp only [insertGrouped]; rw [if_neg hex, if_neg hn], ?_⟩
    have hexF : ∀ kg ∈ acc, ¬ kg.1 = n.category := by
      intro kg hkg he
      exact hex (List.any_eq_true.mpr ⟨kg, hkg, by simp [he]⟩)
    unfold GInv
    refine ⟨?_, ?_, ?_, ?_⟩
    · rw [List.map_append]
      refine List.Nodup.append hnd (List.nodup_singleton _) ?_
      intro a ha hb
      obtain ⟨kg, hkg, hfst⟩ := List.mem_map.mp ha
      have hb' : a = n.category := by simpa using hb
      exact hexF kg hkg (by rw [hfst, hb'])
    · intro kg' hkg'
      rcases List.mem_append.mp hkg' with hin | hsing
      · show kg'.2 = (processed ++ [n]).filter fun m => m.category = kg'.1
        rw [List.filter_append, ← hfil kg' hin]
        have : (List.filter (fun m => m.category = kg'.1) [n]) = [] := by
          have hne : ¬ n.category = kg'.1 := fun he => hexF kg' hin he.symm
          simp [List.filter_cons, hne]
        rw [this, List.append_nil]
      · have hkg'' : kg' = (n.category, [n]) := by simpa using hsing
        rw [hkg'']
        show [n] = (processed ++ [n]).filter fun m => m.category = n.category
        have hnil : (List.filter (fun m => m.category = n.category) processed) = [] := by
          rw [List.filter_eq_nil_iff]
          intro m hm he
          obtain ⟨kg, hkg, hfst⟩ := List.mem_map.mp (hmem m hm)
          exact hexF kg hkg (by rw [hfst]; exact (by simpa using he))
        rw [List.filter_append, hnil]
        simp [List.filter_cons]
    · intro m hm
      rw [List.map_append]
      rcases List.mem_append.mp hm with hm1 | hm2
      · exact List.mem_append_left _ (hmem m hm1)
      · have hm2' : m = n := by simpa using hm2
        apply List.mem_append_right
        simp [hm2']
    · rw [List.map_append, List.flatten_append]
      have : ((([(n.category, [n])] : List (List Char × List NoteItem)).map
          Prod.snd).flatten) = [n] := by simp
      rw [this]
      exact hperm.append_right [n]

theorem ginv_fold (notes : List NoteItem) :
    (∀ n ∈ notes, n.category ∉ objectProtoProps) →
    ∃ gs, groupByCategory notes = some gs ∧ GInv notes gs := by
  induction notes using List.reverseRecOn with
  | nil =>
    intro _
    refine ⟨[], rfl, ?_⟩
    unfold GInv
    exact ⟨List.nodup_nil, by simp, by simp, by simp⟩
  | append_singleton xs x ih =>
    intro h
    obtain ⟨gs, hgs, hinv⟩ := ih fun m hm => h m (List.mem_append_left _ hm)
    obtain ⟨acc2, hacc2, hinv2⟩ :=
      ginv_step xs gs x (h x (List.mem_append_right _ (List.mem_singleton_self x))) hinv
    refine ⟨acc2, ?_, hinv2⟩
    unfold groupByCategory at hgs ⊢
    rw [List.foldlM_append, hgs]
    simp [List.foldlM_cons, List.foldlM_nil, hacc2]

/-- C6 (counterexample): grouping completeness fails on the program: the
note derived from `./notes/toString/x.md` has category `toString`, an
inherited `Object.prototype` property name, so the reduce's truthiness
test sees the inherited method, skips the initialization, and `.push` on
it throws a `TypeError` — the grouping aborts with no grouped output at
all, so no flattened grouping containing the record exists. -/
theorem c6_counterexample :
    (mkNote "./notes/toString/x.md".toList "c".toList).category = "toString".toList ∧
    groupByCategory (noteList protoEntries) = none := by
  decide

/-- C6 (amended): provided no record's category equals a property name
inherited from `Object.prototype` (otherwise the reduce throws a
`TypeError`), the grouping succeeds; each group then equals the sublist of
`noteList` whose records carry that group's category (so every record sits
in the group keyed by its own category, in `noteList` order), and the
flattened groups are a permutation of `noteList` — no duplication, no
omission. -/
theorem c6_grouping_complete (notes : List NoteItem)
    (h : ∀ n ∈ notes, n.category ∉ objectProtoProps) :
    ∃ gs, groupByCategory notes = some gs ∧
      (∀ kg ∈ gs, kg.2 = notes.filter fun n => n.category = kg.1) ∧
      (gs.map Prod.snd).flatten.Perm notes := by
  obtain ⟨gs, hgs, hinv⟩ := ginv_fold notes h
  exact ⟨gs, hgs, hinv.2.1, hinv.2.2.2⟩

theorem c6_grouping_complete_witness :
    ∃ gs, groupByCategory (noteList demoEntries) = some gs ∧
      (∀ kg ∈ gs, kg.2 = (noteList demoEntries).filter fun n => n.category = kg.1) ∧
      (gs.map Prod.snd).flatten.Perm (noteList demoEntries) :=
  c6_grouping_complete (noteList demoEntries) (by decide)

end DevNotes
